import Mathlib

/-!
Verification development for the CARF registry matching engine
(`tools/carf_lookup.py`): a fuzzy matcher that links facility records
against a curated registry, merges fields of high-confidence matches and
emits audit reports.

The Python source is shallowly embedded below.  Python floats are
modelled by `ℚ` (every score produced by the program is a ratio of small
integers); Python dicts holding the known keys are modelled by
structures with `Option` fields for possibly-absent keys; CSV cells are
`Option String`.  `difflib.SequenceMatcher` is embedded through its
documented no-junk contract (the `autojunk` heuristic, which only fires
for strings of 200 characters or more, is not modelled).  The optional
`rapidfuzz` scorers are modelled from that library's documented
formulas (indel similarity); `str.lower` is modelled on ASCII.
-/

/-- Characters kept by `normalize_text`: the class `[a-z0-9 ]`. -/
def keepChar (c : Char) : Bool :=
  (decide ('a' ≤ c) && decide (c ≤ 'z')) ||
  (decide ('0' ≤ c) && decide (c ≤ '9')) || (c == ' ')

/-- Tokens of `normalize_text(s)`: lower-case `s`, replace every character
outside `[a-z0-9 ]` by a space, and split on whitespace dropping empty
pieces (this is `normalize_text(s).split()` in the source). -/
def pyNormTokens (s : String) : List String :=
  let mapped := s.data.map (fun c => let lc := c.toLower; if keepChar lc then lc else ' ')
  ((mapped.splitOn ' ').filter (fun t => t != [])).map (fun t => ⟨t⟩)

/-- `normalize_text` from the source: the tokens joined by single spaces
(lower-cased, punctuation replaced by spaces, whitespace collapsed,
trimmed). -/
def normalize_text (s : String) : String :=
  " ".intercalate (pyNormTokens s)

/-- `token_overlap_score` from the source: Jaccard-style overlap
`|A ∩ B| / max |A| |B|` of the normalized token sets, `0` when either
side has no tokens. -/
def token_overlap_score (a b : String) : ℚ :=
  let A := (pyNormTokens a).toFinset
  let B := (pyNormTokens b).toFinset
  if A = ∅ ∨ B = ∅ then 0
  else ((A ∩ B).card : ℚ) / (max A.card B.card : ℕ)

theorem token_overlap_score_comm (a b : String) :
    token_overlap_score a b = token_overlap_score b a := by
  unfold token_overlap_score
  dsimp only
  rw [Finset.inter_comm, Nat.max_comm]
  exact if_congr or_comm rfl rfl

theorem token_overlap_score_nonneg (a b : String) :
    0 ≤ token_overlap_score a b := by
  unfold token_overlap_score
  dsimp only
  split
  · exact le_refl 0
  · positivity

theorem token_overlap_score_le_one (a b : String) :
    token_overlap_score a b ≤ 1 := by
  unfold token_overlap_score
  dsimp only
  split
  · exact zero_le_one
  · rename_i h
    push_neg at h
    have hA : (pyNormTokens a).toFinset.card ≠ 0 := by
      simpa [Finset.card_eq_zero] using h.1
    have hmax : 0 < (max (pyNormTokens a).toFinset.card (pyNormTokens b).toFinset.card : ℕ) :=
      lt_of_lt_of_le (Nat.pos_of_ne_zero hA) (le_max_left _ _)
    rw [div_le_one (by exact_mod_cast hmax)]
    have hcard : ((pyNormTokens a).toFinset ∩ (pyNormTokens b).toFinset).card ≤
        max (pyNormTokens a).toFinset.card (pyNormTokens b).toFinset.card :=
      le_trans (Finset.card_le_card (Finset.inter_subset_left)) (le_max_left _ _)
    exact_mod_cast hcard

theorem token_overlap_score_self (a : String) (h : pyNormTokens a ≠ []) :
    token_overlap_score a a = 1 := by
  unfold token_overlap_score
  dsimp only
  have hne : (pyNormTokens a).toFinset ≠ ∅ := by
    simpa [← List.toFinset_eq_empty_iff] using h
  rw [if_neg (by simp [hne]), Finset.inter_self, max_self]
  have hpos : 0 < (pyNormTokens a).toFinset.card :=
    Finset.card_pos.mpr (Finset.nonempty_iff_ne_empty.mpr hne)
  rw [div_self]
  exact_mod_cast Nat.pos_iff_ne_zero.mp hpos

theorem token_overlap_score_self_empty (a : String) (h : pyNormTokens a = []) :
    token_overlap_score a a = 0 := by
  unfold token_overlap_score
  dsimp only
  rw [if_pos]
  left
  simp [h]

/-- Invariant-preservation principle for `List.foldl`. -/
theorem foldlInv {α β : Type} (P : β → Prop) (f : β → α → β) :
    ∀ (l : List α) (init : β), P init →
      (∀ b a, a ∈ l → P b → P (f b a)) → P (l.foldl f init)
  | [], _, h, _ => h
  | a :: l, init, h, hf =>
    foldlInv P f l (f init a) (hf init a (List.mem_cons_self a l) h)
      (fun b x hx hb => hf b x (List.mem_cons_of_mem a hx) hb)

/-- Length of the common prefix of two character lists. -/
def cplen : List Char → List Char → Nat
  | a :: as, b :: bs => if a = b then cplen as bs + 1 else 0
  | _, _ => 0

theorem cplen_le_left : ∀ x y : List Char, cplen x y ≤ x.length
  | [], _ => Nat.le_refl 0
  | _ :: _, [] => Nat.zero_le _
  | a :: as, b :: bs => by
    unfold cplen
    split
    · exact Nat.succ_le_succ (cplen_le_left as bs)
    · exact Nat.zero_le _

theorem cplen_le_right : ∀ x y : List Char, cplen x y ≤ y.length
  | [], _ => Nat.zero_le _
  | _ :: _, [] => Nat.le_refl 0
  | a :: as, b :: bs => by
    unfold cplen
    split
    · exact Nat.succ_le_succ (cplen_le_right as bs)
    · exact Nat.zero_le _

theorem cplen_self : ∀ x : List Char, cplen x x = x.length
  | [] => rfl
  | a :: as => by unfold cplen; rw [if_pos rfl, cplen_self as, List.length_cons]

/-- One row of `difflib.SequenceMatcher.find_longest_match`: scan all
start positions `j` of `b` for the fixed start position `i` of `a`,
replacing the incumbent best block only on a strictly longer match
(which realises the documented lowest-`i`-then-lowest-`j` tie break). -/
def seqStep (a b : List Char) (best : Nat × Nat × Nat) (i : Nat) : Nat × Nat × Nat :=
  (List.range b.length).foldl
    (fun best j =>
      let k := cplen (a.drop i) (b.drop j)
      if best.2.2 < k then (i, j, k) else best)
    best

/-- `find_longest_match` over whole sequences, per its documented no-junk
contract: the triple `(i, j, k)` with `a[i:i+k] == b[j:j+k]`, `k`
maximal, then `i` minimal, then `j` minimal; `(0, 0, 0)` when nothing
matches. -/
def seqBest (a b : List Char) : Nat × Nat × Nat :=
  (List.range a.length).foldl (seqStep a b) (0, 0, 0)

/-- What any incumbent produced by the `seqBest` fold looks like. -/
def BestInv (a b : List Char) (t : Nat × Nat × Nat) : Prop :=
  t = (0, 0, 0) ∨
    (t.1 < a.length ∧ t.2.1 < b.length ∧ t.2.2 = cplen (a.drop t.1) (b.drop t.2.1))

theorem seqStep_inv {a b : List Char} {t : Nat × Nat × Nat} {i : Nat}
    (hi : i < a.length) (ht : BestInv a b t) : BestInv a b (seqStep a b t i) := by
  unfold seqStep
  apply foldlInv (BestInv a b) _ _ _ ht
  intro best j hj hbest
  dsimp only
  split
  · right
    exact ⟨hi, List.mem_range.mp hj, rfl⟩
  · exact hbest

theorem seqBest_inv (a b : List Char) : BestInv a b (seqBest a b) := by
  unfold seqBest
  apply foldlInv (BestInv a b) _ _ _ (Or.inl rfl)
  intro best i hi hbest
  exact seqStep_inv (List.mem_range.mp hi) hbest

theorem seqBest_bounds (a b : List Char) :
    (seqBest a b).2.2 ≠ 0 →
      (seqBest a b).1 < a.length ∧ (seqBest a b).2.1 < b.length ∧
      (seqBest a b).2.2 ≤ a.length - (seqBest a b).1 ∧
      (seqBest a b).2.2 ≤ b.length - (seqBest a b).2.1 := by
  intro hk
  rcases seqBest_inv a b with h | ⟨h1, h2, h3⟩
  · exact absurd (by rw [h]) hk
  · refine ⟨h1, h2, ?_, ?_⟩
    · rw [h3]
      simpa using cplen_le_left (a.drop (seqBest a b).1) (b.drop (seqBest a b).2.1)
    · rw [h3]
      simpa using cplen_le_right (a.drop (seqBest a b).1) (b.drop (seqBest a b).2.1)

theorem seqStep_fixed {a b : List Char} {n : Nat}
    (hn : ∀ i j, cplen (a.drop i) (b.drop j) ≤ n) (i : Nat) :
    seqStep a b (0, 0, n) i = (0, 0, n) := by
  unfold seqStep
  apply List.foldl_fixed'
  intro j
  dsimp only
  rw [if_neg]
  exact Nat.not_lt.mpr (hn i j)

theorem foldl_eq_of_first {α β : Type} {f : β → α → β} {init : β} {x : α} {l : List α}
    {c : β} (h1 : f init x = c) (h2 : ∀ a, f c a = c) :
    List.foldl f init (x :: l) = c := by
  rw [List.foldl_cons, h1]
  exact List.foldl_fixed' h2 l

theorem seqBest_self {a : List Char} (h : a ≠ []) :
    seqBest a a = (0, 0, a.length) := by
  have hpos : 0 < a.length := List.length_pos.mpr h
  obtain ⟨m, hm⟩ : ∃ m, a.length = m + 1 := ⟨a.length - 1, by omega⟩
  have hrange : List.range a.length = 0 :: List.map Nat.succ (List.range m) := by
    rw [hm, List.range_succ_eq_map]
  have hbound : ∀ i j, cplen (a.drop i) (a.drop j) ≤ a.length := fun i j =>
    le_trans (cplen_le_left _ _) (le_trans (List.length_drop i a).le (Nat.sub_le _ _))
  unfold seqBest
  rw [hrange]
  apply foldl_eq_of_first
  · unfold seqStep
    rw [hrange]
    apply foldl_eq_of_first
    · dsimp only
      rw [List.drop_zero, cplen_self, if_pos hpos]
    · intro j
      dsimp only
      rw [if_neg]
      exact Nat.not_lt.mpr (hbound 0 j)
  · exact seqStep_fixed hbound

/-- Total size of the matching blocks of `SequenceMatcher`
(`sum(block.size for block in get_matching_blocks())`), with an explicit
recursion fuel: split around the longest match and recurse on the two
remaining corners. -/
def seqMatchTotalF : Nat → List Char → List Char → Nat
  | 0, _, _ => 0
  | fuel + 1, a, b =>
    let t := seqBest a b
    if t.2.2 = 0 then 0
    else
      seqMatchTotalF fuel (a.take t.1) (b.take t.2.1) + t.2.2 +
        seqMatchTotalF fuel (a.drop (t.1 + t.2.2)) (b.drop (t.2.1 + t.2.2))

/-- Total matched size; `a.length + b.length` recursion steps always
suffice, since every recursive call strictly shrinks the corners. -/
def seqMatchTotal (a b : List Char) : Nat :=
  seqMatchTotalF (a.length + b.length) a b

theorem seqMatchTotalF_le_left :
    ∀ (fuel : Nat) (a b : List Char), seqMatchTotalF fuel a b ≤ a.length := by
  intro fuel
  induction fuel with
  | zero => intro a b; exact Nat.zero_le _
  | succ n ih =>
    intro a b
    unfold seqMatchTotalF
    dsimp only
    split
    · exact Nat.zero_le _
    · rename_i hk
      obtain ⟨h1, h2, h3, h4⟩ := seqBest_bounds a b hk
      have hl := ih (a.take (seqBest a b).1) (b.take (seqBest a b).2.1)
      have hr := ih (a.drop ((seqBest a b).1 + (seqBest a b).2.2))
        (b.drop ((seqBest a b).2.1 + (seqBest a b).2.2))
      rw [List.length_take] at hl
      rw [List.length_drop] at hr
      omega

theorem seqMatchTotalF_le_right :
    ∀ (fuel : Nat) (a b : List Char), seqMatchTotalF fuel a b ≤ b.length := by
  intro fuel
  induction fuel with
  | zero => intro a b; exact Nat.zero_le _
  | succ n ih =>
    intro a b
    unfold seqMatchTotalF
    dsimp only
    split
    · exact Nat.zero_le _
    · rename_i hk
      obtain ⟨h1, h2, h3, h4⟩ := seqBest_bounds a b hk
      have hl := ih (a.take (seqBest a b).1) (b.take (seqBest a b).2.1)
      have hr := ih (a.drop ((seqBest a b).1 + (seqBest a b).2.2))
        (b.drop ((seqBest a b).2.1 + (seqBest a b).2.2))
      rw [List.length_take] at hl
      rw [List.length_drop] at hr
      omega

theorem seqMatchTotalF_nil_nil : ∀ fuel : Nat, seqMatchTotalF fuel [] [] = 0
  | 0 => rfl
  | _ + 1 => rfl

theorem seqMatchTotal_self (a : List Char) : seqMatchTotal a a = a.length := by
  rcases eq_or_ne a [] with rfl | h
  · rfl
  · have hpos : 0 < a.length := List.length_pos.mpr h
    obtain ⟨m, hm⟩ : ∃ m, a.length + a.length = m + 1 := ⟨a.length + a.length - 1, by omega⟩
    unfold seqMatchTotal
    rw [hm]
    unfold seqMatchTotalF
    dsimp only
    rw [seqBest_self h]
    dsimp only
    rw [if_neg (by omega)]
    rw [Nat.zero_add, List.drop_length, seqMatchTotalF_nil_nil, List.take_zero,
      seqMatchTotalF_nil_nil]
    omega

/-- `SequenceMatcher.ratio()`: `2 * M / (len(a) + len(b))`, and `1.0`
for two empty sequences (`difflib._calculate_ratio`). -/
def seqRatio (a b : List Char) : ℚ :=
  if a.length + b.length = 0 then 1
  else (2 * seqMatchTotal a b : ℚ) / ((a.length : ℚ) + (b.length : ℚ))

/-- The fallback branch of `similar` in the source:
`SequenceMatcher(None, a.lower(), b.lower()).ratio()`. -/
def sequence_ratio (a b : String) : ℚ :=
  seqRatio (a.data.map Char.toLower) (b.data.map Char.toLower)

theorem seqRatio_self (a : List Char) : seqRatio a a = 1 := by
  unfold seqRatio
  split
  · rfl
  · rename_i hne
    rw [seqMatchTotal_self]
    have hpos : 0 < a.length := by omega
    rw [div_eq_one_iff_eq (by positivity)]
    ring

theorem seqRatio_nonneg (a b : List Char) : 0 ≤ seqRatio a b := by
  unfold seqRatio
  split
  · exact zero_le_one
  · rename_i hne
    have : (0:ℚ) < (a.length : ℚ) + (b.length : ℚ) := by
      have : 0 < a.length + b.length := by omega
      exact_mod_cast this
    positivity

theorem seqRatio_le_one (a b : List Char) : seqRatio a b ≤ 1 := by
  unfold seqRatio
  split
  · exact le_refl 1
  · rename_i hne
    have hsum : 0 < a.length + b.length := by omega
    have hM : 2 * seqMatchTotal a b ≤ a.length + b.length := by
      have h1 := seqMatchTotalF_le_left (a.length + b.length) a b
      have h2 := seqMatchTotalF_le_right (a.length + b.length) a b
      unfold seqMatchTotal
      omega
    rw [div_le_one (by exact_mod_cast hsum)]
    exact_mod_cast hM

theorem sequence_ratio_self (a : String) : sequence_ratio a a = 1 :=
  seqRatio_self _

theorem sequence_ratio_nonneg (a b : String) : 0 ≤ sequence_ratio a b :=
  seqRatio_nonneg _ _

theorem sequence_ratio_le_one (a b : String) : sequence_ratio a b ≤ 1 :=
  seqRatio_le_one _ _

theorem sequence_ratio_eval {a b : String} (M la lb : ℕ)
    (hM : seqMatchTotal (a.data.map Char.toLower) (b.data.map Char.toLower) = M)
    (hla : (a.data.map Char.toLower).length = la)
    (hlb : (b.data.map Char.toLower).length = lb) (h : la + lb ≠ 0) :
    sequence_ratio a b = (2 * M : ℚ) / ((la : ℚ) + (lb : ℚ)) := by
  unfold sequence_ratio seqRatio
  rw [hM, hla, hlb, if_neg h]

/-- Longest common subsequence length; `rapidfuzz`'s Indel distance is
`len(a) + len(b) - 2 * lcs(a, b)`. -/
def lcsLen : List Char → List Char → Nat
  | [], _ => 0
  | _ :: _, [] => 0
  | a :: as, b :: bs =>
    if a = b then lcsLen as bs + 1
    else max (lcsLen (a :: as) bs) (lcsLen as (b :: bs))
termination_by a b => a.length + b.length

theorem lcsLen_comm : ∀ a b : List Char, lcsLen a b = lcsLen b a
  | [], [] => rfl
  | [], _ :: _ => by simp [lcsLen]
  | _ :: _, [] => by simp [lcsLen]
  | a :: as, b :: bs => by
    unfold lcsLen
    rcases eq_or_ne a b with h | h
    · rw [if_pos h, if_pos h.symm, lcsLen_comm as bs]
    · rw [if_neg h, if_neg (Ne.symm h), lcsLen_comm (a :: as) bs,
        lcsLen_comm as (b :: bs), Nat.max_comm]
termination_by a b => a.length + b.length

theorem lcsLen_self : ∀ a : List Char, lcsLen a a = a.length
  | [] => by simp [lcsLen]
  | a :: as => by
    unfold lcsLen
    rw [if_pos rfl, lcsLen_self as, List.length_cons]

theorem lcsLen_le_left : ∀ a b : List Char, lcsLen a b ≤ a.length
  | [], _ => by simp [lcsLen]
  | _ :: _, [] => by simp [lcsLen]
  | a :: as, b :: bs => by
    unfold lcsLen
    split
    · exact Nat.succ_le_succ (lcsLen_le_left as bs)
    · exact Nat.max_le.mpr
        ⟨lcsLen_le_left (a :: as) bs, le_trans (lcsLen_le_left as (b :: bs)) (by simp)⟩
termination_by a b => a.length + b.length

theorem lcsLen_le_right : ∀ a b : List Char, lcsLen a b ≤ b.length
  | [], _ => by simp [lcsLen]
  | _ :: _, [] => by simp [lcsLen]
  | a :: as, b :: bs => by
    unfold lcsLen
    split
    · exact Nat.succ_le_succ (lcsLen_le_right as bs)
    · exact Nat.max_le.mpr
        ⟨le_trans (lcsLen_le_right (a :: as) bs) (by simp), lcsLen_le_right as (b :: bs)⟩
termination_by a b => a.length + b.length

/-- Modelled from the rapidfuzz documentation: `fuzz.ratio`, the
normalized Indel similarity scaled to `0..100`, which equals
`100 * 2 * lcs / (len(a) + len(b))` (and `100` for two empty strings). -/
def fuzzRatio (a b : List Char) : ℚ :=
  if a.length + b.length = 0 then 100
  else 100 * (2 * lcsLen a b : ℚ) / ((a.length : ℚ) + (b.length : ℚ))

theorem fuzzRatio_comm (a b : List Char) : fuzzRatio a b = fuzzRatio b a := by
  unfold fuzzRatio
  rw [lcsLen_comm]
  rw [Nat.add_comm a.length b.length, add_comm (b.length : ℚ) (a.length : ℚ)]

theorem fuzzRatio_self (a : List Char) : fuzzRatio a a = 100 := by
  unfold fuzzRatio
  split
  · rfl
  · rename_i h
    have hpos : 0 < a.length := by omega
    rw [lcsLen_self]
    rw [div_eq_iff (by positivity)]
    ring

theorem fuzzRatio_nonneg (a b : List Char) : 0 ≤ fuzzRatio a b := by
  unfold fuzzRatio
  split
  · norm_num
  · rename_i h
    have : (0:ℚ) < (a.length : ℚ) + (b.length : ℚ) := by
      have : 0 < a.length + b.length := by omega
      exact_mod_cast this
    positivity

theorem fuzzRatio_le_hundred (a b : List Char) : fuzzRatio a b ≤ 100 := by
  unfold fuzzRatio
  split
  · exact le_refl _
  · rename_i h
    have hsum : 0 < a.length + b.length := by omega
    have hlcs : 2 * lcsLen a b ≤ a.length + b.length := by
      have h1 := lcsLen_le_left a b
      have h2 := lcsLen_le_right a b
      omega
    have hq : (0:ℚ) < (a.length : ℚ) + (b.length : ℚ) := by exact_mod_cast hsum
    have hle : (2 * lcsLen a b : ℚ) ≤ ((a.length : ℚ) + (b.length : ℚ)) := by
      exact_mod_cast hlcs
    rw [mul_div_assoc]
    have hdiv : (2 * lcsLen a b : ℚ) / ((a.length : ℚ) + (b.length : ℚ)) ≤ 1 :=
      (div_le_one hq).mpr hle
    nlinarith

/-- Python `str.split()` token separators (common whitespace). -/
def pyIsSpace (c : Char) : Bool :=
  c == ' ' || c == '\t' || c == '\n' || c == '\r'

/-- Python `s.split()`: whitespace-separated words, no empties. -/
def pyWords (s : String) : List String :=
  ((s.data.splitOnP pyIsSpace).filter (fun t => t != [])).map (fun t => ⟨t⟩)

/-- Join a list of words with single spaces, as a character list. -/
def joinWords (l : List String) : List Char :=
  List.intercalate [' '] (l.map String.data)

/-- Modelled from the rapidfuzz documentation: `fuzz.token_sort_ratio`,
the indel ratio of the two strings after sorting their words. -/
def token_sort_ratio (a b : String) : ℚ :=
  fuzzRatio (joinWords (List.insertionSort (· ≤ ·) (pyWords a)))
    (joinWords (List.insertionSort (· ≤ ·) (pyWords b)))

theorem token_sort_ratio_comm (a b : String) :
    token_sort_ratio a b = token_sort_ratio b a :=
  fuzzRatio_comm _ _

theorem token_sort_ratio_self (a : String) : token_sort_ratio a a = 100 :=
  fuzzRatio_self _

theorem token_sort_ratio_nonneg (a b : String) : 0 ≤ token_sort_ratio a b :=
  fuzzRatio_nonneg _ _

theorem token_sort_ratio_le_hundred (a b : String) : token_sort_ratio a b ≤ 100 :=
  fuzzRatio_le_hundred _ _

/-- Modelled from the rapidfuzz documentation: `fuzz.token_set_ratio`,
the best indel ratio among the sorted word-set intersection and each
side's intersection-plus-difference. -/
def token_set_ratio (a b : String) : ℚ :=
  let A := (pyWords a).toFinset
  let B := (pyWords b).toFinset
  let t0 := joinWords (Finset.sort (· ≤ ·) (A ∩ B))
  let t1 := joinWords (Finset.sort (· ≤ ·) (A ∩ B) ++ Finset.sort (· ≤ ·) (A \ B))
  let t2 := joinWords (Finset.sort (· ≤ ·) (A ∩ B) ++ Finset.sort (· ≤ ·) (B \ A))
  max (max (fuzzRatio t0 t1) (fuzzRatio t0 t2)) (fuzzRatio t1 t2)

theorem token_set_ratio_comm (a b : String) :
    token_set_ratio a b = token_set_ratio b a := by
  unfold token_set_ratio
  dsimp only
  rw [Finset.inter_comm]
  rw [fuzzRatio_comm
    (joinWords (Finset.sort (· ≤ ·) ((pyWords b).toFinset ∩ (pyWords a).toFinset) ++
      Finset.sort (· ≤ ·) ((pyWords a).toFinset \ (pyWords b).toFinset)))]
  rw [max_comm (fuzzRatio _ _) (fuzzRatio _ _)]

theorem token_set_ratio_self (a : String) : token_set_ratio a a = 100 := by
  unfold token_set_ratio
  dsimp only
  rw [Finset.inter_self, Finset.sdiff_self, Finset.sort_empty, List.append_nil,
    fuzzRatio_self, max_self, max_self]

theorem token_set_ratio_nonneg (a b : String) : 0 ≤ token_set_ratio a b := by
  unfold token_set_ratio
  dsimp only
  exact le_trans (fuzzRatio_nonneg _ _) (le_max_of_le_left (le_max_left _ _))

theorem token_set_ratio_le_hundred (a b : String) : token_set_ratio a b ≤ 100 := by
  unfold token_set_ratio
  dsimp only
  exact max_le (max_le (fuzzRatio_le_hundred _ _) (fuzzRatio_le_hundred _ _))
    (fuzzRatio_le_hundred _ _)

theorem foldl_max_le {l : List ℚ} {c q : ℚ} (hc : c ≤ q) (h : ∀ x ∈ l, x ≤ q) :
    l.foldl max c ≤ q := by
  apply foldlInv (fun b => b ≤ q) max l c hc
  intro b x hx hb
  exact max_le hb (h x hx)

theorem le_foldl_max_init (l : List ℚ) (c : ℚ) : c ≤ l.foldl max c := by
  apply foldlInv (fun b => c ≤ b) max l c (le_refl c)
  intro b x _ hb
  exact le_trans hb (le_max_left b x)

theorem le_foldl_max_of_mem : ∀ {l : List ℚ} {x : ℚ} (c : ℚ), x ∈ l → x ≤ l.foldl max c := by
  intro l
  induction l with
  | nil => intro x c hx; cases hx
  | cons y ys ih =>
    intro x c hx
    rcases List.mem_cons.mp hx with rfl | hx
    · exact le_trans (le_max_right c x) (le_foldl_max_init ys (max c x))
    · exact ih (max c y) hx

/-- Best window score: the indel ratio of the shorter string against
every window of its own length in the longer one. -/
def windowBest (s l : List Char) : ℚ :=
  ((List.range (l.length - s.length + 1)).map
    (fun i => fuzzRatio s ((l.drop i).take s.length))).foldl max 0

/-- Modelled from the rapidfuzz documentation: `fuzz.partial_ratio`,
the best alignment of the shorter string inside the longer one. -/
def pySubRatio (a b : String) : ℚ :=
  if a.data.length ≤ b.data.length then windowBest a.data b.data
  else windowBest b.data a.data

theorem windowBest_self (a : List Char) : windowBest a a = 100 := by
  unfold windowBest
  rw [Nat.sub_self, Nat.zero_add, (show List.range 1 = [0] from rfl)]
  simp only [List.map_cons, List.map_nil, List.drop_zero, List.take_length, fuzzRatio_self,
    List.foldl_cons, List.foldl_nil]
  exact max_eq_right (by norm_num)

theorem pySubRatio_comm (a b : String) : pySubRatio a b = pySubRatio b a := by
  unfold pySubRatio
  rcases le_or_lt a.data.length b.data.length with h | h
  · rcases eq_or_lt_of_le h with he | hlt
    · rw [if_pos h, if_pos (le_of_eq he.symm)]
      unfold windowBest
      rw [he, Nat.sub_self, Nat.zero_add, (show List.range 1 = [0] from rfl)]
      simp only [List.map_cons, List.map_nil, List.drop_zero, List.foldl_cons, List.foldl_nil]
      have h2 : List.take b.data.length a.data = a.data := by
        rw [← he]
        exact List.take_length a.data
      rw [List.take_length, h2, fuzzRatio_comm]
    · rw [if_pos h, if_neg (by omega)]
  · rw [if_neg (by omega), if_pos (le_of_lt h)]

theorem pySubRatio_self (a : String) : pySubRatio a a = 100 := by
  unfold pySubRatio
  rw [if_pos (le_refl _)]
  exact windowBest_self _

theorem pySubRatio_nonneg (a b : String) : 0 ≤ pySubRatio a b := by
  unfold pySubRatio
  split
  · exact le_foldl_max_init _ _
  · exact le_foldl_max_init _ _

theorem pySubRatio_le_hundred (a b : String) : pySubRatio a b ≤ 100 := by
  unfold pySubRatio
  split
  · exact foldl_max_le (by norm_num) (by
      intro x hx
      obtain ⟨i, _, rfl⟩ := List.mem_map.mp hx
      exact fuzzRatio_le_hundred _ _)
  · exact foldl_max_le (by norm_num) (by
      intro x hx
      obtain ⟨i, _, rfl⟩ := List.mem_map.mp hx
      exact fuzzRatio_le_hundred _ _)

/-- `similar` from the source: `fuzz.token_sort_ratio(a, b) / 100.0`
when rapidfuzz is importable, else
`SequenceMatcher(None, a.lower(), b.lower()).ratio()`. -/
def similar (haveRapidfuzz : Bool) (a b : String) : ℚ :=
  if haveRapidfuzz then token_sort_ratio a b / 100 else sequence_ratio a b

theorem similar_true_comm (a b : String) :
    similar true a b = similar true b a := by
  simp only [similar, if_pos]
  rw [token_sort_ratio_comm]

theorem similar_self (h : Bool) (a : String) : similar h a a = 1 := by
  unfold similar
  split
  · rw [token_sort_ratio_self]
    norm_num
  · exact sequence_ratio_self a

theorem similar_nonneg (h : Bool) (a b : String) : 0 ≤ similar h a b := by
  unfold similar
  split
  · exact div_nonneg (token_sort_ratio_nonneg a b) (by norm_num)
  · exact sequence_ratio_nonneg a b

theorem similar_le_one (h : Bool) (a b : String) : similar h a b ≤ 1 := by
  unfold similar
  split
  · rw [div_le_one (by norm_num)]
    exact token_sort_ratio_le_hundred a b
  · exact sequence_ratio_le_one a b

/-- `rapidfuzz_combined` from the source: weighted blend
`(0.45 ts + 0.25 pr + 0.2 tset) / 100`, floor-adjusted by
`0.9 * token_overlap`, clamped to `[0, 1]`; plain `similar` fallback
when rapidfuzz is missing. -/
def rapidfuzz_combined (haveRapidfuzz : Bool) (a b : String) : ℚ :=
  if haveRapidfuzz then
    let ts := token_sort_ratio a b
    let pr := pySubRatio a b
    let tset := token_set_ratio a b
    let score := (0.45 * ts + 0.25 * pr + 0.2 * tset) / 100
    let score2 := max score (token_overlap_score a b * 0.9)
    min (max score2 0) 1
  else similar haveRapidfuzz a b

theorem rapidfuzz_combined_true_comm (a b : String) :
    rapidfuzz_combined true a b = rapidfuzz_combined true b a := by
  simp only [rapidfuzz_combined, if_pos]
  rw [token_sort_ratio_comm, pySubRatio_comm, token_set_ratio_comm, token_overlap_score_comm]

theorem rapidfuzz_combined_true_self (a : String) :
    rapidfuzz_combined true a a = 9 / 10 := by
  simp only [rapidfuzz_combined, if_pos]
  rw [token_sort_ratio_self, pySubRatio_self, token_set_ratio_self]
  have h1 : ((0.45 * 100 + 0.25 * 100 + 0.2 * 100 : ℚ)) / 100 = 9 / 10 := by norm_num
  rw [h1]
  have h2 : token_overlap_score a a * 0.9 ≤ 9 / 10 := by
    have := token_overlap_score_le_one a a
    have := token_overlap_score_nonneg a a
    nlinarith
  rw [max_eq_left h2, max_eq_left (by norm_num), min_eq_left (by norm_num)]

theorem rapidfuzz_combined_nonneg (h : Bool) (a b : String) :
    0 ≤ rapidfuzz_combined h a b := by
  unfold rapidfuzz_combined
  split
  · exact le_min (le_max_right _ 0) (by norm_num)
  · exact similar_nonneg h a b

theorem rapidfuzz_combined_le_one (h : Bool) (a b : String) :
    rapidfuzz_combined h a b ≤ 1 := by
  unfold rapidfuzz_combined
  split
  · exact min_le_right _ 1
  · exact similar_le_one h a b

/-- Python `str.strip()`: remove leading and trailing whitespace. -/
def pyStrip (s : String) : String :=
  ⟨((s.data.dropWhile pyIsSpace).reverse.dropWhile pyIsSpace).reverse⟩

/-- ASCII model of Python `str.lower()`. -/
def lowerStr (s : String) : String :=
  ⟨s.data.map Char.toLower⟩

/-- Value of a digit run, most significant first. -/
def digitsToNat (l : List Char) : ℕ :=
  l.foldl (fun acc c => 10 * acc + (c.toNat - 48)) 0

/-- Exponent part of a float literal: optional sign then digits. -/
def pyFloatExp (m : ℚ) (l : List Char) : Option ℚ :=
  let p : Bool × List Char :=
    match l with
    | '+' :: r => (false, r)
    | '-' :: r => (true, r)
    | r => (false, r)
  if p.2 ≠ [] ∧ p.2.all Char.isDigit then
    some (if p.1 then m / 10 ^ digitsToNat p.2 else m * 10 ^ digitsToNat p.2)
  else none

/-- Unsigned mantissa of a float literal: `digits`, `digits.digits`,
`.digits` or `digits.`, with an optional exponent. -/
def pyFloatCore (l : List Char) : Option ℚ :=
  let ip := l.takeWhile Char.isDigit
  let r1 := l.dropWhile Char.isDigit
  match r1 with
  | [] => if ip = [] then none else some (digitsToNat ip)
  | '.' :: r2 =>
    let fp := r2.takeWhile Char.isDigit
    let r3 := r2.dropWhile Char.isDigit
    if ip = [] ∧ fp = [] then none
    else
      let m : ℚ := (digitsToNat ip : ℚ) + (digitsToNat fp : ℚ) / 10 ^ fp.length
      match r3 with
      | [] => some m
      | e :: r4 => if e == 'e' || e == 'E' then pyFloatExp m r4 else none
  | e :: r2 =>
    if ip = [] then none
    else if e == 'e' || e == 'E' then pyFloatExp (digitsToNat ip : ℚ) r2 else none

/-- Model of CPython `float(str)` on finite decimal literals: strips
surrounding whitespace, optional sign, digits with optional fraction and
exponent; anything else fails (`ValueError`).  The `inf`/`nan` words and
underscore digit separators accepted by CPython are outside this model
(the registry claims never involve them). -/
def pyFloat (s : String) : Option ℚ :=
  match (pyStrip s).data with
  | '+' :: r => pyFloatCore r
  | '-' :: r => (pyFloatCore r).map Neg.neg
  | r => pyFloatCore r

/-- One CSV row as handed over by `csv.DictReader`: the four known
columns, each possibly missing. -/
structure CsvRow where
  name : Option String
  carf_brain_injury : Option String
  average_therapy_hours : Option String
  level_of_care : Option String
deriving DecidableEq

/-- One normalized registry entry (`load_local_registry`'s dicts). -/
structure RegistryEntry where
  name : String
  carf_brain_injury : Bool
  average_therapy_hours : Option ℚ
  level_of_care : Option String
deriving DecidableEq

/-- Truthiness of a CSV cell: present and non-empty. -/
def cellTruthy (o : Option String) : Bool :=
  match o with
  | none => false
  | some s => s != ""

/-- Normalization of one registry row, from the loop body of
`load_local_registry`.  `float(...)` on an unparsable non-empty
therapy-hours cell raises `ValueError`, which the source does not
catch. -/
def loadRow (r : CsvRow) : Except String RegistryEntry :=
  let hours : Except String (Option ℚ) :=
    if cellTruthy r.average_therapy_hours then
      match pyFloat (r.average_therapy_hours.getD "") with
      | some q => .ok (some q)
      | none => .error "ValueError: could not convert string to float"
    else .ok none
  match hours with
  | .error e => .error e
  | .ok hq =>
    let carfCell := lowerStr (pyStrip (r.carf_brain_injury.getD ""))
    let levelCell := pyStrip (r.level_of_care.getD "")
    .ok
      { name := pyStrip (r.name.getD "")
        carf_brain_injury := carfCell == "1" || carfCell == "true" || carfCell == "yes"
        average_therapy_hours := hq
        level_of_care := if levelCell = "" then none else some levelCell }

/-- `load_local_registry`: absent file gives the empty registry; rows of
an existing file are normalized in order, the first `ValueError`
aborting the whole load. -/
def load_local_registry : Option (List CsvRow) → Except String (List RegistryEntry)
  | none => .ok []
  | some rows => rows.mapM loadRow

/-- Per-entry score of `find_registry_matches`:
`max(max(scorer(text, r.name), scorer(name, r.name)), token_overlap(text, r.name))`. -/
def scoreOf (scorer : String → String → ℚ) (text name : String) (r : RegistryEntry) : ℚ :=
  max (max (scorer text r.name) (scorer name r.name)) (token_overlap_score text r.name)

/-- The composite search string of the ranker:
`(name or '') + ' ' + ' '.join(aliases or [])`. -/
def compositeText (name : String) (aliases : List String) : String :=
  name ++ " " ++ " ".intercalate aliases

/-- The unsorted scored candidate list, one pair per registry entry, in
registry order. -/
def scoreCandidates (scorer : String → String → ℚ) (name : String) (aliases : List String)
    (regs : List RegistryEntry) : List (ℚ × RegistryEntry) :=
  regs.map (fun r => (scoreOf scorer (compositeText name aliases) name r, r))

/-- The ordering used by `candidates.sort(key=lambda x: x[0], reverse=True)`:
score descending.  A stable sort under this relation keeps equal-score
candidates in registry order, exactly like CPython's stable `list.sort`. -/
def candGE (x y : ℚ × RegistryEntry) : Prop := y.1 ≤ x.1

instance : DecidableRel candGE := fun x y => inferInstanceAs (Decidable (y.1 ≤ x.1))

instance : IsTotal (ℚ × RegistryEntry) candGE := ⟨fun a b => le_total b.1 a.1⟩

instance : IsTrans (ℚ × RegistryEntry) candGE := ⟨fun _ _ _ h1 h2 => le_trans h2 h1⟩

/-- The stable descending sort of the candidate list. -/
def sortCandidates (l : List (ℚ × RegistryEntry)) : List (ℚ × RegistryEntry) :=
  List.insertionSort candGE l

/-- `find_registry_matches` from the source, parameterized by the scorer
strategy standing for `similar` (whose branch is fixed at startup by the
rapidfuzz import probe). -/
def find_registry_matches (scorer : String → String → ℚ) (name : String)
    (aliases : List String) (regs : List RegistryEntry) (top_n : ℕ := 3) :
    List (ℚ × RegistryEntry) :=
  if name = "" ∧ aliases = [] then []
  else (sortCandidates (scoreCandidates scorer name aliases regs)).take top_n

/-- The `brain_injury` dict: its `value` key may be absent (the merge's
`setdefault` creates the bare dict before conditionally writing the key). -/
structure BrainDict where
  value : Option Bool
deriving DecidableEq

/-- The `carf_accreditations` dict. -/
structure CarfDict where
  brain_injury : Option BrainDict
deriving DecidableEq

/-- The `specializations` dict. -/
structure SpecsDict where
  carf_accreditations : Option CarfDict
deriving DecidableEq

/-- The `average_therapy_hours_per_day` wrapper dict `{'value': h}`. -/
structure HoursDict where
  value : ℚ
deriving DecidableEq

/-- The `program_details` dict. -/
structure ProgDict where
  average_therapy_hours_per_day : Option HoursDict
deriving DecidableEq

/-- The `name` field of a facility record: either a plain string or a
dict with an optional `value` key. -/
inductive NameField where
  | plain (s : String)
  | dict (value : Option String)
deriving DecidableEq

/-- One facility record of the enriched snapshot: the keys read or
written by `apply_registry`, plus `extra` standing for all other JSON
keys (which the engine never touches). -/
structure TargetRecord where
  id : Option String
  name : Option NameField
  alias_names : Option (List String)
  specializations : Option SpecsDict
  program_details : Option ProgDict
  level_of_care : Option String
  extra : List (String × String)
deriving DecidableEq

/-- Name extraction at the top of the record loop:
`f['name'].get('value') or ''` for dict names, `f.get('name') or ''`
otherwise. -/
def recordName (f : TargetRecord) : String :=
  match f.name with
  | none => ""
  | some (.plain s) => s
  | some (.dict v) => v.getD ""

/-- `f.get('alias_names') or []`. -/
def recordAliases (f : TargetRecord) : List String :=
  f.alias_names.getD []

/-- The current truthiness of the nested accreditation flag, as read for
both `carf_before` (`try`/`except` chain) and `carf_after`
(`.get` chain with `{}` defaults): `True` exactly when the nested
`value` key exists and is `True`. -/
def carfValue (f : TargetRecord) : Bool :=
  match f.specializations with
  | none => false
  | some s =>
    match s.carf_accreditations with
    | none => false
    | some c =>
      match c.brain_injury with
      | none => false
      | some b => b.value.getD false

/-- `AUTO_APPLY_THRESHOLD = 0.75` (auto-apply only high-confidence). -/
def AUTO_APPLY_THRESHOLD : ℚ := 0.75

/-- `SUGGESTION_MIN = 0.3` (surface candidates above this for review). -/
def SUGGESTION_MIN : ℚ := 0.3

/-- Model of Python `round(x, nd)`: scale, round half to even, unscale.
(CPython rounds the binary double; on the exact rational value this is
the documented banker's rounding.) -/
def pyRound (x : ℚ) (nd : ℕ) : ℚ :=
  let y := x * 10 ^ nd
  let fl := ⌊y⌋
  let r : ℤ :=
    if y - fl < 1 / 2 then fl
    else if 1 / 2 < y - fl then fl + 1
    else if fl % 2 = 0 then fl else fl + 1
  (r : ℚ) / 10 ^ nd

/-- The merge block of `apply_registry` (lines 144-158): `setdefault`
scaffolding for the nested dicts, then three independent conditional
field writes driven by the winning match. -/
def mergeMatch (f : TargetRecord) (m : RegistryEntry) : TargetRecord :=
  let spec0 := f.specializations.getD ⟨none⟩
  let carf0 := spec0.carf_accreditations.getD ⟨none⟩
  let brain0 := carf0.brain_injury.getD ⟨none⟩
  let brain1 := if m.carf_brain_injury then { brain0 with value := some true } else brain0
  let pd0 := f.program_details.getD ⟨none⟩
  let pd1 :=
    match m.average_therapy_hours with
    | some h =>
      if h = 0 then pd0 else { pd0 with average_therapy_hours_per_day := some ⟨h⟩ }
    | none => pd0
  let level1 :=
    match m.level_of_care with
    | some s => if s = "" then f.level_of_care else some s
    | none => f.level_of_care
  { f with
    specializations :=
      some { spec0 with carf_accreditations := some { carf0 with brain_injury := some brain1 } }
    program_details := some pd1
    level_of_care := level1 }

/-- One row of `tools/carf_lookup_report.csv`. -/
structure ReportRow where
  id : Option String
  name : String
  matched : Bool
  match_score : ℚ
  carf_before : Bool
  carf_after : Bool
deriving DecidableEq

/-- One row of `tools/carf_lookup_suggestions.csv`. -/
structure SuggestionRow where
  id : Option String
  facility_name : String
  candidate_name : String
  score : ℚ
  candidate_carf : Bool
  candidate_therapy_hours : Option ℚ
deriving DecidableEq

/-- Everything one iteration of the record loop of `apply_registry`
produces for a single record. -/
structure RecordOutcome where
  post : TargetRecord
  applied : Bool
  row : ReportRow
  suggs : List SuggestionRow
deriving DecidableEq

/-- One iteration of the record loop of `apply_registry`: rank, decide,
merge on high confidence, then emit the decision row and the suggestion
rows. -/
def processRecord (scorer : String → String → ℚ) (regs : List RegistryEntry)
    (f : TargetRecord) : RecordOutcome :=
  let name := recordName f
  let aliases := recordAliases f
  let candidates := find_registry_matches scorer name aliases regs 5
  let top_score : ℚ := match candidates with | [] => 0 | c :: _ => c.1
  let top_match : Option RegistryEntry :=
    match candidates with | [] => none | c :: _ => some c.2
  let carf_before := carfValue f
  let res : TargetRecord × Bool :=
    match top_match with
    | some m =>
      if AUTO_APPLY_THRESHOLD ≤ top_score then (mergeMatch f m, true) else (f, false)
    | none => (f, false)
  { post := res.1
    applied := res.2
    row :=
      { id := f.id
        name := name
        matched := !candidates.isEmpty
        match_score := pyRound top_score 2
        carf_before := carf_before
        carf_after := carfValue res.1 }
    suggs := (candidates.filter (fun c => decide (SUGGESTION_MIN ≤ c.1))).map (fun c =>
      { id := f.id
        facility_name := name
        candidate_name := c.2.name
        score := pyRound c.1 3
        candidate_carf := c.2.carf_brain_injury
        candidate_therapy_hours := c.2.average_therapy_hours }) }

/-- The three outputs and the applied counter of `apply_registry`. -/
structure RunOutputs where
  out : List TargetRecord
  report : List ReportRow
  suggestions : List SuggestionRow
  updated : ℕ
deriving DecidableEq

/-- `apply_registry`: the record loop over the whole snapshot, every
record processed independently in order. -/
def apply_registry (scorer : String → String → ℚ) (regs : List RegistryEntry)
    (data : List TargetRecord) : RunOutputs :=
  { out := data.map (fun f => (processRecord scorer regs f).post)
    report := data.map (fun f => (processRecord scorer regs f).row)
    suggestions := (data.map (fun f => (processRecord scorer regs f).suggs)).flatten
    updated := (data.filter (fun f => (processRecord scorer regs f).applied)).length }

/-- `main`: with an empty (or absent, hence empty) registry it prints a
diagnostic and returns exit code 1 without running the matching pass,
writing no outputs (`none`); otherwise it runs `apply_registry`. -/
def main_run (scorer : String → String → ℚ) (regs : List RegistryEntry)
    (data : List TargetRecord) : Option RunOutputs :=
  if regs = [] then none else some (apply_registry scorer regs data)

theorem sortCandidates_sorted (l : List (ℚ × RegistryEntry)) :
    (sortCandidates l).Sorted candGE :=
  List.sorted_insertionSort candGE l

theorem filter_key_orderedInsert (q : ℚ) (a : ℚ × RegistryEntry)
    (l : List (ℚ × RegistryEntry)) :
    (List.orderedInsert candGE a l).filter (fun c => decide (c.1 = q)) =
      if a.1 = q then a :: l.filter (fun c => decide (c.1 = q))
      else l.filter (fun c => decide (c.1 = q)) := by
  rw [List.orderedInsert_eq_take_drop, List.filter_append]
  have htw : (List.takeWhile (fun b => decide ¬candGE a b) l).filter
      (fun c => decide (c.1 = q)) = [] ∨ ¬a.1 = q := by
    by_cases hq : a.1 = q
    · left
      rw [List.filter_eq_nil_iff]
      intro b hb
      have hmem := List.mem_takeWhile_imp hb
      have : ¬candGE a b := of_decide_eq_true hmem
      unfold candGE at this
      simp only [decide_eq_true_eq]
      intro hbq
      exact this (le_of_eq (hbq.trans hq.symm))
    · right; exact hq
  by_cases hq : a.1 = q
  · rcases htw with h0 | h0
    · rw [h0, if_pos hq, List.nil_append, List.filter_cons, if_pos (by simpa using hq)]
      congr 1
      conv_rhs => rw [← List.takeWhile_append_dropWhile (p := fun b => decide ¬candGE a b) (l := l)]
      rw [List.filter_append, h0, List.nil_append]
    · exact absurd hq h0
  · rw [if_neg hq, List.filter_cons, if_neg (by simpa using hq)]
    conv_rhs => rw [← List.takeWhile_append_dropWhile (p := fun b => decide ¬candGE a b) (l := l)]
    rw [List.filter_append]

theorem filter_key_sortCandidates (q : ℚ) :
    ∀ l : List (ℚ × RegistryEntry),
      (sortCandidates l).filter (fun c => decide (c.1 = q)) =
        l.filter (fun c => decide (c.1 = q))
  | [] => rfl
  | a :: l => by
    have : sortCandidates (a :: l) = List.orderedInsert candGE a (sortCandidates l) := rfl
    rw [this, filter_key_orderedInsert, filter_key_sortCandidates q l, List.filter_cons]
    by_cases hq : a.1 = q
    · rw [if_pos hq, if_pos (by simpa using hq)]
    · rw [if_neg hq, if_neg (by simpa using hq)]

/-- `candidates[0][0] if candidates else 0`. -/
def headScore (l : List (ℚ × RegistryEntry)) : ℚ :=
  match l with
  | [] => 0
  | c :: _ => c.1

theorem processRecord_applied_iff (scorer : String → String → ℚ) (regs : List RegistryEntry)
    (f : TargetRecord) :
    (processRecord scorer regs f).applied = true ↔
      find_registry_matches scorer (recordName f) (recordAliases f) regs 5 ≠ [] ∧
        AUTO_APPLY_THRESHOLD ≤
          headScore (find_registry_matches scorer (recordName f) (recordAliases f) regs 5) := by
  unfold processRecord
  dsimp only
  cases hc : find_registry_matches scorer (recordName f) (recordAliases f) regs 5 with
  | nil => simp [headScore]
  | cons c cs =>
    dsimp only
    split_ifs with h
    · simp [headScore, h]
    · simp [headScore, h]

theorem processRecord_post_of_not_applied (scorer : String → String → ℚ)
    (regs : List RegistryEntry) (f : TargetRecord)
    (h : (processRecord scorer regs f).applied = false) :
    (processRecord scorer regs f).post = f := by
  revert h
  unfold processRecord
  dsimp only
  cases hc : find_registry_matches scorer (recordName f) (recordAliases f) regs 5 with
  | nil => intro _; rfl
  | cons c cs =>
    dsimp only
    split_ifs with h
    · intro hcontra; cases hcontra
    · intro _; rfl

theorem processRecord_post_of_applied (scorer : String → String → ℚ)
    (regs : List RegistryEntry) (f : TargetRecord)
    (h : (processRecord scorer regs f).applied = true) :
    ∃ c cs, find_registry_matches scorer (recordName f) (recordAliases f) regs 5 = c :: cs ∧
      AUTO_APPLY_THRESHOLD ≤ c.1 ∧
      (processRecord scorer regs f).post = mergeMatch f c.2 := by
  revert h
  unfold processRecord
  dsimp only
  cases hc : find_registry_matches scorer (recordName f) (recordAliases f) regs 5 with
  | nil => intro hcontra; cases hcontra
  | cons c cs =>
    dsimp only
    split_ifs with h
    · intro _; exact ⟨c, cs, rfl, h, rfl⟩
    · intro hcontra; cases hcontra

theorem processRecord_suggs_eq (scorer : String → String → ℚ) (regs : List RegistryEntry)
    (f : TargetRecord) :
    (processRecord scorer regs f).suggs =
      ((find_registry_matches scorer (recordName f) (recordAliases f) regs 5).filter
        (fun c => decide (SUGGESTION_MIN ≤ c.1))).map (fun c =>
          { id := f.id
            facility_name := recordName f
            candidate_name := c.2.name
            score := pyRound c.1 3
            candidate_carf := c.2.carf_brain_injury
            candidate_therapy_hours := c.2.average_therapy_hours }) := rfl

theorem processRecord_row_matched (scorer : String → String → ℚ) (regs : List RegistryEntry)
    (f : TargetRecord) :
    (processRecord scorer regs f).row.matched =
      !(find_registry_matches scorer (recordName f) (recordAliases f) regs 5).isEmpty := rfl

/-- The nested accreditation `value` key, when the whole path exists. -/
def brainValue (f : TargetRecord) : Option Bool :=
  ((f.specializations.bind SpecsDict.carf_accreditations).bind
    CarfDict.brain_injury).bind BrainDict.value

/-- The nested therapy-hours value, when present. -/
def hoursValue (f : TargetRecord) : Option ℚ :=
  (f.program_details.bind ProgDict.average_therapy_hours_per_day).map HoursDict.value

theorem mergeMatch_brain_of_true (f : TargetRecord) (m : RegistryEntry)
    (hm : m.carf_brain_injury = true) :
    brainValue (mergeMatch f m) = some true := by
  obtain ⟨i, n, al, sp, pd, lc, ex⟩ := f
  rcases sp with _ | ⟨cf⟩
  · simp [mergeMatch, brainValue, hm]
  · rcases cf with _ | ⟨bi⟩
    · simp [mergeMatch, brainValue, hm]
    · rcases bi with _ | ⟨v⟩ <;> simp [mergeMatch, brainValue, hm]

theorem mergeMatch_brain_of_false (f : TargetRecord) (m : RegistryEntry)
    (hm : m.carf_brain_injury = false) :
    brainValue (mergeMatch f m) = brainValue f := by
  obtain ⟨i, n, al, sp, pd, lc, ex⟩ := f
  rcases sp with _ | ⟨cf⟩
  · simp [mergeMatch, brainValue, hm]
  · rcases cf with _ | ⟨bi⟩
    · simp [mergeMatch, brainValue, hm]
    · rcases bi with _ | ⟨v⟩ <;> simp [mergeMatch, brainValue, hm]

theorem mergeMatch_hours_of_truthy (f : TargetRecord) (m : RegistryEntry) (h : ℚ)
    (hm : m.average_therapy_hours = some h) (hz : h ≠ 0) :
    hoursValue (mergeMatch f m) = some h := by
  obtain ⟨i, n, al, sp, pd, lc, ex⟩ := f
  rcases pd with _ | ⟨av⟩ <;> simp [mergeMatch, hoursValue, hm, hz]

theorem mergeMatch_hours_of_falsy (f : TargetRecord) (m : RegistryEntry)
    (hm : m.average_therapy_hours = none ∨ m.average_therapy_hours = some 0) :
    hoursValue (mergeMatch f m) = hoursValue f := by
  obtain ⟨i, n, al, sp, pd, lc, ex⟩ := f
  rcases hm with hm | hm <;>
    rcases pd with _ | ⟨av⟩ <;> simp [mergeMatch, hoursValue, hm]

theorem mergeMatch_level_of_truthy (f : TargetRecord) (m : RegistryEntry) (s : String)
    (hm : m.level_of_care = some s) (hs : s ≠ "") :
    (mergeMatch f m).level_of_care = some s := by
  simp [mergeMatch, hm, hs]

theorem mergeMatch_level_of_falsy (f : TargetRecord) (m : RegistryEntry)
    (hm : m.level_of_care = none ∨ m.level_of_care = some "") :
    (mergeMatch f m).level_of_care = f.level_of_care := by
  rcases hm with hm | hm <;> simp [mergeMatch, hm]

theorem mergeMatch_frame (f : TargetRecord) (m : RegistryEntry) :
    (mergeMatch f m).id = f.id ∧ (mergeMatch f m).name = f.name ∧
      (mergeMatch f m).alias_names = f.alias_names ∧ (mergeMatch f m).extra = f.extra := by
  exact ⟨rfl, rfl, rfl, rfl⟩

/-- C1: a record is Applied, with fields merged, exactly when its
candidate list is non-empty and the top candidate's score reaches
`AUTO_APPLY_THRESHOLD`; an Applied record is merged from that single top
candidate only. -/
theorem C1_applied_gate (scorer : String → String → ℚ) (regs : List RegistryEntry)
    (f : TargetRecord) :
    ((processRecord scorer regs f).applied = true ↔
      find_registry_matches scorer (recordName f) (recordAliases f) regs 5 ≠ [] ∧
        AUTO_APPLY_THRESHOLD ≤
          headScore (find_registry_matches scorer (recordName f) (recordAliases f) regs 5)) ∧
    (∀ hne : find_registry_matches scorer (recordName f) (recordAliases f) regs 5 ≠ [],
      (processRecord scorer regs f).applied = true →
        (processRecord scorer regs f).post =
          mergeMatch f ((find_registry_matches scorer (recordName f) (recordAliases f)
            regs 5).head hne).2) := by
  constructor
  · exact processRecord_applied_iff scorer regs f
  · intro hne happ
    obtain ⟨c, cs, hc, _, hpost⟩ := processRecord_post_of_applied scorer regs f happ
    rw [hpost]
    have hhead : (find_registry_matches scorer (recordName f) (recordAliases f)
        regs 5).head hne = c := by
      simp only [hc, List.head_cons]
    rw [hhead]

/-- A concrete registry entry for witnesses. -/
def e0 : RegistryEntry :=
  { name := "ab", carf_brain_injury := true, average_therapy_hours := some 3,
    level_of_care := some "inpatient" }

/-- A concrete one-entry registry. -/
def regs0 : List RegistryEntry := [e0]

/-- A concrete bare target record whose name matches `e0` exactly. -/
def f0 : TargetRecord :=
  { id := some "r1", name := some (.plain "ab"), alias_names := none,
    specializations := none, program_details := none, level_of_care := none, extra := [] }

theorem w_find_eq :
    find_registry_matches sequence_ratio (recordName f0) (recordAliases f0) regs0 5 =
      [(scoreOf sequence_ratio (compositeText "ab" []) "ab" e0, e0)] := rfl

theorem w_score_val : scoreOf sequence_ratio (compositeText "ab" []) "ab" e0 = 1 := by
  have h0 : scoreOf sequence_ratio (compositeText "ab" []) "ab" e0 =
      max (max (sequence_ratio (compositeText "ab" []) "ab") (sequence_ratio "ab" "ab"))
        (token_overlap_score (compositeText "ab" []) "ab") := rfl
  rw [h0, sequence_ratio_self, max_eq_right (sequence_ratio_le_one _ _),
    max_eq_left (token_overlap_score_le_one _ _)]

theorem w_applied : (processRecord sequence_ratio regs0 f0).applied = true := by
  apply (processRecord_applied_iff _ _ _).mpr
  constructor
  · rw [w_find_eq]
    simp
  · rw [w_find_eq]
    show AUTO_APPLY_THRESHOLD ≤ headScore [(scoreOf sequence_ratio (compositeText "ab" []) "ab" e0, e0)]
    have : headScore [(scoreOf sequence_ratio (compositeText "ab" []) "ab" e0, e0)] =
        scoreOf sequence_ratio (compositeText "ab" []) "ab" e0 := rfl
    rw [this, w_score_val]
    norm_num [AUTO_APPLY_THRESHOLD]

/-- Witness for C1: on a concrete record and registry the gate applies
the single top candidate. -/
theorem C1_applied_gate_witness :
    (processRecord sequence_ratio regs0 f0).applied = true ∧
    (processRecord sequence_ratio regs0 f0).post = mergeMatch f0 e0 := by
  refine ⟨w_applied, ?_⟩
  have hne : find_registry_matches sequence_ratio (recordName f0) (recordAliases f0) regs0 5 ≠ [] := by
    rw [w_find_eq]
    simp
  have h2 := (C1_applied_gate sequence_ratio regs0 f0).2 hne w_applied
  rw [h2]
  have hhead : (find_registry_matches sequence_ratio (recordName f0) (recordAliases f0)
      regs0 5).head hne = (scoreOf sequence_ratio (compositeText "ab" []) "ab" e0, e0) := by
    simp only [w_find_eq, List.head_cons]
  rw [hhead]

/-- A CSV row whose therapy-hours cell is the parsable token `0`. -/
def row0 : CsvRow :=
  { name := some "ab", carf_brain_injury := some "true",
    average_therapy_hours := some "0", level_of_care := some "inpatient" }

/-- The registry entry `load_local_registry` produces from `row0`:
therapy hours are present but equal to `0`. -/
def m0 : RegistryEntry :=
  { name := "ab", carf_brain_injury := true, average_therapy_hours := some 0,
    level_of_care := some "inpatient" }

/-- `f0` with an existing therapy-hours value of `5`. -/
def fHours : TargetRecord :=
  { f0 with program_details := some ⟨some ⟨5⟩⟩ }

/-- Counterexample to C2 as stated: a registry row with therapy-hours
cell `"0"` loads to an entry that provides the value `0`, yet an Applied
merge of that entry does not overwrite the target's existing
therapy-hours value `5` (Python truthiness: `0.0` is falsy). -/
theorem C2_counterexample :
    loadRow row0 = .ok m0 ∧ m0.average_therapy_hours = some 0 ∧
      hoursValue fHours = some 5 ∧
      hoursValue (mergeMatch fHours m0) = some 5 ∧ (5 : ℚ) ≠ 0 := by
  refine ⟨?_, rfl, rfl, ?_, by norm_num⟩
  · show loadRow row0 = .ok m0
    unfold loadRow
    have hcell : cellTruthy row0.average_therapy_hours = true := rfl
    have hfloat : pyFloat (row0.average_therapy_hours.getD "") = some ((0 : ℕ) : ℚ) := rfl
    rw [hcell]
    simp only [if_pos, hfloat]
    norm_num
    rfl
  · rw [mergeMatch_hours_of_falsy fHours m0 (Or.inr rfl)]
    rfl

/-- C2 amended: in an Applied merge, the accreditation flag is set to
true exactly when the match's flag is true and is never downgraded; the
therapy-hours field is overwritten exactly when the match provides a
non-zero value (a provided value of `0` is falsy in Python and is
treated as absent); level-of-care is set exactly when the match provides
a non-empty label; the three field merges are independent, none touching
the others' fields. -/
theorem C2_merge_fields (f : TargetRecord) (m : RegistryEntry) :
    (m.carf_brain_injury = true → brainValue (mergeMatch f m) = some true) ∧
    (m.carf_brain_injury = false → brainValue (mergeMatch f m) = brainValue f) ∧
    (∀ h : ℚ, m.average_therapy_hours = some h → h ≠ 0 →
      hoursValue (mergeMatch f m) = some h) ∧
    (m.average_therapy_hours = none ∨ m.average_therapy_hours = some 0 →
      hoursValue (mergeMatch f m) = hoursValue f) ∧
    (∀ s : String, m.level_of_care = some s → s ≠ "" →
      (mergeMatch f m).level_of_care = some s) ∧
    (m.level_of_care = none ∨ m.level_of_care = some "" →
      (mergeMatch f m).level_of_care = f.level_of_care) :=
  ⟨mergeMatch_brain_of_true f m,
   mergeMatch_brain_of_false f m,
   fun h hm hz => mergeMatch_hours_of_truthy f m h hm hz,
   fun hm => mergeMatch_hours_of_falsy f m hm,
   fun s hm hs => mergeMatch_level_of_truthy f m s hm hs,
   fun hm => mergeMatch_level_of_falsy f m hm⟩

/-- Witness for the amended C2 on concrete data: `e0` offers all three
fields, and each lands. -/
theorem C2_merge_fields_witness :
    brainValue (mergeMatch fHours e0) = some true ∧
      hoursValue (mergeMatch fHours e0) = some 3 ∧
      (mergeMatch fHours e0).level_of_care = some "inpatient" := by
  have h := C2_merge_fields fHours e0
  exact ⟨h.1 rfl, h.2.2.1 3 rfl (by norm_num), h.2.2.2.2.1 "inpatient" rfl (by decide)⟩

/-- A registry entry matching `f0`'s name that offers none of the three
mergeable fields. -/
def mN : RegistryEntry :=
  { name := "ab", carf_brain_injury := false, average_therapy_hours := none,
    level_of_care := none }

/-- The one-entry registry holding `mN`. -/
def regsN : List RegistryEntry := [mN]

theorem wN_find_eq :
    find_registry_matches sequence_ratio (recordName f0) (recordAliases f0) regsN 5 =
      [(scoreOf sequence_ratio (compositeText "ab" []) "ab" mN, mN)] := rfl

theorem wN_score_val : scoreOf sequence_ratio (compositeText "ab" []) "ab" mN = 1 := by
  have h0 : scoreOf sequence_ratio (compositeText "ab" []) "ab" mN =
      max (max (sequence_ratio (compositeText "ab" []) "ab") (sequence_ratio "ab" "ab"))
        (token_overlap_score (compositeText "ab" []) "ab") := rfl
  rw [h0, sequence_ratio_self, max_eq_right (sequence_ratio_le_one _ _),
    max_eq_left (token_overlap_score_le_one _ _)]

theorem wN_applied : (processRecord sequence_ratio regsN f0).applied = true := by
  apply (processRecord_applied_iff _ _ _).mpr
  constructor
  · rw [wN_find_eq]
    simp
  · rw [wN_find_eq]
    have : headScore [(scoreOf sequence_ratio (compositeText "ab" []) "ab" mN, mN)] =
        scoreOf sequence_ratio (compositeText "ab" []) "ab" mN := rfl
    rw [this, wN_score_val]
    norm_num [AUTO_APPLY_THRESHOLD]

/-- Counterexample to C3 as stated: `mN` offers no accreditation, no
therapy hours and no level of care, yet the Applied merge still changes
the record: the `setdefault` calls materialize an empty
`program_details` dict (and empty accreditation scaffolding) on a record
that had neither. -/
theorem C3_counterexample :
    (processRecord sequence_ratio regsN f0).applied = true ∧
      mN.carf_brain_injury = false ∧ mN.average_therapy_hours = none ∧
      mN.level_of_care = none ∧
      (processRecord sequence_ratio regsN f0).post.program_details ≠ f0.program_details := by
  refine ⟨wN_applied, rfl, rfl, rfl, ?_⟩
  obtain ⟨c, cs, hc, _, hpost⟩ := processRecord_post_of_applied sequence_ratio regsN f0 wN_applied
  rw [hpost]
  rw [wN_find_eq] at hc
  have hcm : c = (scoreOf sequence_ratio (compositeText "ab" []) "ab" mN, mN) := by
    injection hc with h1 _
    exact h1.symm
  rw [hcm]
  simp [mergeMatch, f0, mN]

/-- C3 amended: a Suggested/NoMatch (not-Applied) decision returns the
record unchanged; an Applied merge preserves the identifier, name,
aliases and all unrelated keys, and preserves the accreditation value,
therapy-hours value and level-of-care whenever the winning match does
not offer them (though the `setdefault` scaffolding may materialize
empty container dicts on the path to the merged fields). -/
theorem C3_frame (scorer : String → String → ℚ) (regs : List RegistryEntry)
    (f : TargetRecord) (m : RegistryEntry) :
    ((processRecord scorer regs f).applied = false → (processRecord scorer regs f).post = f) ∧
    ((mergeMatch f m).id = f.id ∧ (mergeMatch f m).name = f.name ∧
      (mergeMatch f m).alias_names = f.alias_names ∧ (mergeMatch f m).extra = f.extra) ∧
    (m.carf_brain_injury = false → brainValue (mergeMatch f m) = brainValue f) ∧
    (m.average_therapy_hours = none ∨ m.average_therapy_hours = some 0 →
      hoursValue (mergeMatch f m) = hoursValue f) ∧
    (m.level_of_care = none ∨ m.level_of_care = some "" →
      (mergeMatch f m).level_of_care = f.level_of_care) :=
  ⟨processRecord_post_of_not_applied scorer regs f,
   mergeMatch_frame f m,
   mergeMatch_brain_of_false f m,
   mergeMatch_hours_of_falsy f m,
   mergeMatch_level_of_falsy f m⟩

/-- A record with no usable name and no aliases. -/
def fEmpty : TargetRecord :=
  { id := some "r2", name := none, alias_names := none, specializations := none,
    program_details := none, level_of_care := none, extra := [("website", "x")] }

theorem w_fEmpty_not_applied :
    (processRecord sequence_ratio regs0 fEmpty).applied = false := by
  have hemp : find_registry_matches sequence_ratio (recordName fEmpty) (recordAliases fEmpty)
      regs0 5 = [] := rfl
  have hnot : ¬((processRecord sequence_ratio regs0 fEmpty).applied = true) := by
    intro h
    exact ((processRecord_applied_iff sequence_ratio regs0 fEmpty).mp h).1 hemp
  exact Bool.not_eq_true _ |>.mp hnot

/-- Witness for the amended C3 on concrete data: a no-candidate record
comes back unchanged, and an offer-nothing merge preserves the tracked
fields. -/
theorem C3_frame_witness :
    (processRecord sequence_ratio regs0 fEmpty).post = fEmpty ∧
      (mergeMatch fEmpty mN).extra = fEmpty.extra ∧
      brainValue (mergeMatch fEmpty mN) = brainValue fEmpty ∧
      hoursValue (mergeMatch fEmpty mN) = hoursValue fEmpty ∧
      (mergeMatch fEmpty mN).level_of_care = fEmpty.level_of_care := by
  have h := C3_frame sequence_ratio regs0 fEmpty mN
  exact ⟨h.1 w_fEmpty_not_applied, h.2.1.2.2.2, h.2.2.1 rfl, h.2.2.2.1 (Or.inl rfl),
    h.2.2.2.2 (Or.inl rfl)⟩

/-- Counterexample to C4 as stated: the fallback sequence-alignment
scorer (`SequenceMatcher.ratio`) is not symmetric
(`similar('ab','bacb')` is `2/3` but `similar('bacb','ab')` is `1/3`);
the token-overlap scorer returns `0`, not `1`, on a pair of equal
token-free strings; and the blended scorer's weights sum to `0.9`, so
`rapidfuzz_combined(x, x)` is `0.9`, not `1.0`. -/
theorem C4_counterexample :
    sequence_ratio "ab" "bacb" ≠ sequence_ratio "bacb" "ab" ∧
      token_overlap_score "" "" ≠ 1 ∧
      rapidfuzz_combined true "x" "x" ≠ 1 := by
  refine ⟨?_, ?_, ?_⟩
  · rw [sequence_ratio_eval 2 2 4 (by decide) (by decide) (by decide) (by decide),
      sequence_ratio_eval 1 4 2 (by decide) (by decide) (by decide) (by decide)]
    norm_num
  · rw [token_overlap_score_self_empty "" rfl]
    norm_num
  · rw [rapidfuzz_combined_true_self "x"]
    norm_num

/-- C4 amended: every scorer stays within `[0,1]`; the token-overlap and
blended scorers are symmetric; the sequence-alignment scorer satisfies
`scorer(a,a) = 1`; token-overlap satisfies identity exactly on strings
with at least one normalized token (and returns `0` on `(a,a)`
otherwise); the blended scorer satisfies
`rapidfuzz_combined(a,a) = 0.9`.  (Symmetry fails for the fallback
sequence scorer, per the counterexample.) -/
theorem C4_scorer_properties (a b : String) :
    (0 ≤ sequence_ratio a b ∧ sequence_ratio a b ≤ 1) ∧
    (0 ≤ token_overlap_score a b ∧ token_overlap_score a b ≤ 1) ∧
    (0 ≤ rapidfuzz_combined true a b ∧ rapidfuzz_combined true a b ≤ 1) ∧
    token_overlap_score a b = token_overlap_score b a ∧
    rapidfuzz_combined true a b = rapidfuzz_combined true b a ∧
    sequence_ratio a a = 1 ∧
    (pyNormTokens a ≠ [] → token_overlap_score a a = 1) ∧
    (pyNormTokens a = [] → token_overlap_score a a = 0) ∧
    rapidfuzz_combined true a a = 9 / 10 :=
  ⟨⟨sequence_ratio_nonneg a b, sequence_ratio_le_one a b⟩,
   ⟨token_overlap_score_nonneg a b, token_overlap_score_le_one a b⟩,
   ⟨rapidfuzz_combined_nonneg true a b, rapidfuzz_combined_le_one true a b⟩,
   token_overlap_score_comm a b,
   rapidfuzz_combined_true_comm a b,
   sequence_ratio_self a,
   token_overlap_score_self a,
   token_overlap_score_self_empty a,
   rapidfuzz_combined_true_self a⟩

/-- Witness for the amended C4: identity facts at concrete strings with
and without normalized tokens. -/
theorem C4_scorer_properties_witness :
    token_overlap_score "ab" "ab" = 1 ∧ token_overlap_score "" "" = 0 := by
  have h1 := C4_scorer_properties "ab" "cd"
  have h2 := C4_scorer_properties "" ""
  exact ⟨h1.2.2.2.2.2.2.1 (by decide), h2.2.2.2.2.2.2.2.1 rfl⟩

/-- C5: for any scorer strategy, the candidate list returned by the
ranker is the descending stable sort of the per-entry scored list,
truncated to `top_n`; it is sorted non-increasing by score, and within
each score class the sorted list keeps the registry insertion order
(stable tie-break), so the output is a deterministic function of the
inputs. -/
theorem C5_ranked_order (scorer : String → String → ℚ) (name : String)
    (aliases : List String) (regs : List RegistryEntry) (top_n : ℕ)
    (h : ¬(name = "" ∧ aliases = [])) :
    find_registry_matches scorer name aliases regs top_n =
      (sortCandidates (scoreCandidates scorer name aliases regs)).take top_n ∧
    (find_registry_matches scorer name aliases regs top_n).Sorted (fun x y => y.1 ≤ x.1) ∧
    (∀ q : ℚ,
      (sortCandidates (scoreCandidates scorer name aliases regs)).filter
          (fun c => decide (c.1 = q)) =
        (scoreCandidates scorer name aliases regs).filter (fun c => decide (c.1 = q))) := by
  have he : find_registry_matches scorer name aliases regs top_n =
      (sortCandidates (scoreCandidates scorer name aliases regs)).take top_n := by
    unfold find_registry_matches
    exact if_neg h
  refine ⟨he, ?_, fun q => filter_key_sortCandidates q _⟩
  rw [he]
  exact (sortCandidates_sorted (scoreCandidates scorer name aliases regs)).sublist
    (List.take_sublist top_n _)

/-- Witness for C5 at a concrete target and registry. -/
theorem C5_ranked_order_witness :
    find_registry_matches sequence_ratio "ab" [] regs0 5 =
      (sortCandidates (scoreCandidates sequence_ratio "ab" [] regs0)).take 5 ∧
    (find_registry_matches sequence_ratio "ab" [] regs0 5).Sorted (fun x y => y.1 ≤ x.1) ∧
    (∀ q : ℚ,
      (sortCandidates (scoreCandidates sequence_ratio "ab" [] regs0)).filter
          (fun c => decide (c.1 = q)) =
        (scoreCandidates sequence_ratio "ab" [] regs0).filter (fun c => decide (c.1 = q))) :=
  C5_ranked_order sequence_ratio "ab" [] regs0 5 (by simp)

/-- C6: for a target with a usable name or aliases, the ranker scores
every registry entry as the max of the scorer on the composite
string (display name, a space, the space-joined aliases) and on the bare
name, together with the token overlap on the composite string, and
returns the top `top_n` of the stable descending sort of those scores. -/
theorem C6_score_formula (scorer : String → String → ℚ) (name : String)
    (aliases : List String) (regs : List RegistryEntry) (top_n : ℕ)
    (h : ¬(name = "" ∧ aliases = [])) :
    compositeText name aliases = name ++ " " ++ " ".intercalate aliases ∧
    scoreCandidates scorer name aliases regs =
      regs.map (fun r =>
        (max (max (scorer (compositeText name aliases) r.name) (scorer name r.name))
          (token_overlap_score (compositeText name aliases) r.name), r)) ∧
    find_registry_matches scorer name aliases regs top_n =
      (sortCandidates (scoreCandidates scorer name aliases regs)).take top_n :=
  ⟨rfl, rfl, by
    unfold find_registry_matches
    exact if_neg h⟩

/-- Witness for C6 at a concrete target and registry. -/
theorem C6_score_formula_witness :
    compositeText "ab" [] = "ab" ++ " " ++ " ".intercalate [] ∧
    scoreCandidates sequence_ratio "ab" [] regs0 =
      regs0.map (fun r =>
        (max (max (sequence_ratio (compositeText "ab" []) r.name) (sequence_ratio "ab" r.name))
          (token_overlap_score (compositeText "ab" []) r.name), r)) ∧
    find_registry_matches sequence_ratio "ab" [] regs0 5 =
      (sortCandidates (scoreCandidates sequence_ratio "ab" [] regs0)).take 5 :=
  C6_score_formula sequence_ratio "ab" [] regs0 5 (by simp)

/-- The suggestion row built for candidate `c` of record `f`. -/
def mkSuggRow (f : TargetRecord) (c : ℚ × RegistryEntry) : SuggestionRow :=
  { id := f.id
    facility_name := recordName f
    candidate_name := c.2.name
    score := pyRound c.1 3
    candidate_carf := c.2.carf_brain_injury
    candidate_therapy_hours := c.2.average_therapy_hours }

/-- C7: the suggestion rows of a record are exactly the rows of its
ranked candidates with score at least `SUGGESTION_MIN`, in rank order —
independent of whether the record was Applied; in particular, every
candidate at or above the threshold (the applied top candidate included)
appears in the suggestion report. -/
theorem C7_suggestions (scorer : String → String → ℚ) (regs : List RegistryEntry)
    (f : TargetRecord) :
    (processRecord scorer regs f).suggs =
      ((find_registry_matches scorer (recordName f) (recordAliases f) regs 5).filter
        (fun c => decide (SUGGESTION_MIN ≤ c.1))).map (mkSuggRow f) ∧
    (∀ c ∈ find_registry_matches scorer (recordName f) (recordAliases f) regs 5,
      SUGGESTION_MIN ≤ c.1 → mkSuggRow f c ∈ (processRecord scorer regs f).suggs) := by
  constructor
  · rfl
  · intro c hc hs
    show mkSuggRow f c ∈ (processRecord scorer regs f).suggs
    have he : (processRecord scorer regs f).suggs =
        ((find_registry_matches scorer (recordName f) (recordAliases f) regs 5).filter
          (fun c => decide (SUGGESTION_MIN ≤ c.1))).map (mkSuggRow f) := rfl
    rw [he]
    exact List.mem_map_of_mem (mkSuggRow f)
      (List.mem_filter.mpr ⟨hc, by simpa using hs⟩)

/-- Witness for C7: the applied top candidate of `f0` is itself emitted
to the suggestion report. -/
theorem C7_suggestions_witness :
    mkSuggRow f0 (scoreOf sequence_ratio (compositeText "ab" []) "ab" e0, e0) ∈
      (processRecord sequence_ratio regs0 f0).suggs := by
  apply (C7_suggestions sequence_ratio regs0 f0).2
  · rw [w_find_eq]
    exact List.mem_singleton.mpr rfl
  · show SUGGESTION_MIN ≤ (scoreOf sequence_ratio (compositeText "ab" []) "ab" e0, e0).1
    have : (scoreOf sequence_ratio (compositeText "ab" []) "ab" e0, e0).1 =
        scoreOf sequence_ratio (compositeText "ab" []) "ab" e0 := rfl
    rw [this, w_score_val]
    norm_num [SUGGESTION_MIN]

/-- A registry row whose therapy-hours cell holds an unparsable token. -/
def rowBad : CsvRow :=
  { name := some "x", carf_brain_injury := none,
    average_therapy_hours := some "abc", level_of_care := none }

/-- A registry row whose therapy-hours cell is empty. -/
def rowNone : CsvRow :=
  { name := some "x", carf_brain_injury := some "no",
    average_therapy_hours := some "", level_of_care := none }

/-- Counterexample to C8 as stated: a row with the malformed
therapy-hours token `"abc"` is not coerced to absent — `float('abc')`
raises `ValueError`, aborting the load of the whole registry. -/
theorem C8_counterexample :
    loadRow rowBad = .error "ValueError: could not convert string to float" ∧
      load_local_registry (some [rowBad]) =
        .error "ValueError: could not convert string to float" := ⟨rfl, rfl⟩

/-- C8 amended: an absent or empty therapy-hours cell is coerced to an
absent field without raising; a non-empty cell that does not parse as a
float raises `ValueError` (uncaught, so the run aborts). -/
theorem C8_load_numeric (r : CsvRow) :
    (cellTruthy r.average_therapy_hours = false →
      ∃ e, loadRow r = .ok e ∧ e.average_therapy_hours = none) ∧
    (∀ s : String, r.average_therapy_hours = some s → s ≠ "" → pyFloat s = none →
      loadRow r = .error "ValueError: could not convert string to float") := by
  constructor
  · intro h
    unfold loadRow
    rw [h]
    simp only [Bool.false_eq_true, if_false]
    exact ⟨_, rfl, rfl⟩
  · intro s hs hne hpf
    have ht : cellTruthy r.average_therapy_hours = true := by
      rw [hs]
      simpa [cellTruthy] using hne
    unfold loadRow
    rw [ht, if_pos rfl, hs]
    simp only [Option.getD_some, hpf]

/-- Witness for the amended C8 on concrete rows: the empty cell loads
with absent hours; the `"abc"` cell raises. -/
theorem C8_load_numeric_witness :
    (∃ e, loadRow rowNone = .ok e ∧ e.average_therapy_hours = none) ∧
      loadRow rowBad = .error "ValueError: could not convert string to float" := by
  refine ⟨(C8_load_numeric rowNone).1 rfl, ?_⟩
  exact (C8_load_numeric rowBad).2 "abc" rfl (by decide) rfl

/-- C9: a record with no name and no aliases yields an empty candidate
list without an error, is never Applied, and passes through unchanged;
while an absent registry file loads as the empty registry, and `main`
with an empty registry aborts the matching pass with a diagnostic exit,
producing no enriched output and no reports; a non-empty registry does
run the pass. -/
theorem C9_degenerate_inputs (scorer : String → String → ℚ) (regs : List RegistryEntry)
    (data : List TargetRecord) (f : TargetRecord)
    (hf : recordName f = "" ∧ recordAliases f = []) :
    find_registry_matches scorer (recordName f) (recordAliases f) regs 5 = [] ∧
    (processRecord scorer regs f).applied = false ∧
    (processRecord scorer regs f).post = f ∧
    load_local_registry none = .ok [] ∧
    main_run scorer [] data = none ∧
    (regs ≠ [] → main_run scorer regs data = some (apply_registry scorer regs data)) := by
  have hemp : find_registry_matches scorer (recordName f) (recordAliases f) regs 5 = [] := by
    unfold find_registry_matches
    exact if_pos hf
  have happ : (processRecord scorer regs f).applied = false := by
    have hnot : ¬((processRecord scorer regs f).applied = true) := by
      intro h
      exact ((processRecord_applied_iff scorer regs f).mp h).1 hemp
    exact Bool.not_eq_true _ |>.mp hnot
  refine ⟨hemp, happ, processRecord_post_of_not_applied scorer regs f happ, rfl, rfl, ?_⟩
  intro hr
  unfold main_run
  exact if_neg hr

/-- Witness for C9 on a concrete nameless record and the concrete
registry. -/
theorem C9_degenerate_inputs_witness :
    (processRecord sequence_ratio regs0 fEmpty).post = fEmpty ∧
      main_run sequence_ratio [] [f0] = none ∧
      main_run sequence_ratio regs0 [f0] = some (apply_registry sequence_ratio regs0 [f0]) := by
  have h := C9_degenerate_inputs sequence_ratio regs0 [f0] fEmpty ⟨rfl, rfl⟩
  exact ⟨h.2.2.1, h.2.2.2.2.1, h.2.2.2.2.2 (by simp [regs0])⟩

/-- C10: with a usable name or aliases and a non-empty registry, the
ranker returns exactly `min top_n |registry|` candidates — every entry
becomes a candidate no matter how low its score — so the report's
`matched` column is true for every such record; `matched` means only
that the candidate list is non-empty. -/
theorem C10_matched_means_nonempty (scorer : String → String → ℚ)
    (regs : List RegistryEntry) (f : TargetRecord) (top_n : ℕ)
    (h : ¬(recordName f = "" ∧ recordAliases f = [])) (hr : regs ≠ []) :
    (find_registry_matches scorer (recordName f) (recordAliases f) regs top_n).length =
      min top_n regs.length ∧
    ((processRecord scorer regs f).row.matched = true ↔
      find_registry_matches scorer (recordName f) (recordAliases f) regs 5 ≠ []) ∧
    (processRecord scorer regs f).row.matched = true := by
  have hlen : ∀ n : ℕ,
      (find_registry_matches scorer (recordName f) (recordAliases f) regs n).length =
        min n regs.length := by
    intro n
    unfold find_registry_matches
    rw [if_neg h, List.length_take]
    unfold sortCandidates scoreCandidates
    rw [List.length_insertionSort, List.length_map]
  have hiff : (processRecord scorer regs f).row.matched = true ↔
      find_registry_matches scorer (recordName f) (recordAliases f) regs 5 ≠ [] := by
    rw [processRecord_row_matched]
    simp [List.isEmpty_iff]
  refine ⟨hlen top_n, hiff, hiff.mpr ?_⟩
  intro hnil
  have h5 := hlen 5
  rw [hnil] at h5
  have hp := List.length_pos.mpr hr
  simp at h5
  omega

/-- Witness for C10 at a concrete record and registry. -/
theorem C10_matched_means_nonempty_witness :
    (find_registry_matches sequence_ratio (recordName f0) (recordAliases f0) regs0 3).length =
      min 3 regs0.length ∧
    (processRecord sequence_ratio regs0 f0).row.matched = true := by
  have h := C10_matched_means_nonempty sequence_ratio regs0 f0 3 (by simp [recordName, f0])
    (by simp [regs0])
  exact ⟨h.1, h.2.2⟩
